import Mathlib

/-!
# WFA2-lib `utils/commons.h`: bit utilities and numeric helpers

Shallow embedding of the software fallbacks of `commons.h` (the `_MSC_VER`
branch without `__AVX__`), of the inclusive random sampler macro, and of the
math and parsing macros.

Machine integers are natural numbers reduced modulo `2^w` wherever the C
arithmetic can wrap.  The code is only compiled for the Microsoft toolchain,
where `unsigned long` and `int` are 32 bits wide and `uint64_t` is 64 bits.
-/

namespace WFA2

/-! ## Machine integers -/

/-- Conversion to `uint64_t` (and the wrap of 64-bit unsigned arithmetic). -/
def toU64 (n : Nat) : Nat := n % 2 ^ 64

/-- Conversion to `uint32_t` / `unsigned long` (32-bit unsigned wrap). -/
def toU32 (n : Nat) : Nat := n % 2 ^ 32

/-- Conversion of an unsigned value to `int` (32-bit two's complement). -/
def toInt (n : Nat) : Int :=
  if n % 2 ^ 32 < 2 ^ 31 then ((n % 2 ^ 32 : Nat) : Int)
  else ((n % 2 ^ 32 : Nat) : Int) - 2 ^ 32

/-! ## Common masks (`commons.h` lines 172-184) -/

def UINT64_ZEROS : Nat := 0x0000000000000000
def UINT64_ONES : Nat := 0xFFFFFFFFFFFFFFFF
def UINT32_ZEROS : Nat := 0x00000000
def UINT32_ONES : Nat := 0xFFFFFFFF
def UINT64_ONE_MASK : Nat := 0x0000000000000001
def UINT64_ZERO_LAST_MASK : Nat := 0x7FFFFFFFFFFFFFFF
def UINT32_ONE_MASK : Nat := 0x00000001
def UINT32_ZERO_LAST_MASK : Nat := 0x7FFFFFFF

/-! ## Population count, software fallback (`commons.h` lines 274-301) -/

/-- Fallback `POPCOUNT_64`: six mask-shift-add rounds on a `uint64_t`,
then the cast to `int`. -/
def POPCOUNT_64 (value : Nat) : Int :=
  let m01 : Nat := 0x5555555555555555
  let m02 : Nat := 0x3333333333333333
  let m04 : Nat := 0x0f0f0f0f0f0f0f0f
  let m08 : Nat := 0x00ff00ff00ff00ff
  let m16 : Nat := 0x0000ffff0000ffff
  let m32 : Nat := 0x00000000ffffffff
  let value := toU64 ((value &&& m01) + ((value >>> 1) &&& m01))
  let value := toU64 ((value &&& m02) + ((value >>> 2) &&& m02))
  let value := toU64 ((value &&& m04) + ((value >>> 4) &&& m04))
  let value := toU64 ((value &&& m08) + ((value >>> 8) &&& m08))
  let value := toU64 ((value &&& m16) + ((value >>> 16) &&& m16))
  let value := toU64 ((value &&& m32) + ((value >>> 32) &&& m32))
  toInt value

/-- Fallback `POPCOUNT_32`: five rounds; every round is evaluated in
`uint64_t` (the masks are 64-bit) and stored back into the `uint32_t`
parameter. -/
def POPCOUNT_32 (value : Nat) : Int :=
  let m01 : Nat := 0x55555555
  let m02 : Nat := 0x33333333
  let m04 : Nat := 0x0f0f0f0f
  let m08 : Nat := 0x00ff00ff
  let m16 : Nat := 0x0000ffff
  let value := toU32 (toU64 ((value &&& m01) + ((value >>> 1) &&& m01)))
  let value := toU32 (toU64 ((value &&& m02) + ((value >>> 2) &&& m02)))
  let value := toU32 (toU64 ((value &&& m04) + ((value >>> 4) &&& m04)))
  let value := toU32 (toU64 ((value &&& m08) + ((value >>> 8) &&& m08)))
  let value := toU32 (toU64 ((value &&& m16) + ((value >>> 16) &&& m16)))
  toInt value

/-- Reference population count: the number of indices `i < n` whose bit `i`
of `w` is set (what `__popcnt` / `__builtin_popcount` return for width `n`). -/
def popcountRef (n w : Nat) : Nat :=
  ((List.range n).filter (fun i => w.testBit i)).length

/-! ## Bit scans (compiler intrinsics used by lines 331-357) -/

/-- Modelled from the spec: the bit-scan primitive that locates the lowest
set bit.  Scan of `n` bits of `Mask` from bit `i` upwards: the index of the
first set bit met. -/
def scanForward (Mask : Nat) : Nat → Nat → Option Nat
  | 0, _ => none
  | n + 1, i => if Mask.testBit i then some i else scanForward Mask n (i + 1)

/-- Modelled from the spec: the bit-scan primitive that locates the highest
set bit.  Scan of the low `n` bits of `Mask` from bit `n - 1` downwards: the
index of the first set bit met. -/
def scanReverse (Mask : Nat) : Nat → Option Nat
  | 0 => none
  | n + 1 => if Mask.testBit n then some n else scanReverse Mask n

/-- Modelled from the spec: the compiler intrinsic
`_BitScanForward(&Index, Mask)`, whose body is not part of `commons.h`.  It
searches the 32-bit mask from the least significant bit and yields the new
content of `Index` together with the returned flag.  With no set bit the flag
is `0` and `Index` is left as it was (the content is unspecified there). -/
def _BitScanForward (Index Mask : Nat) : Nat × Bool :=
  match scanForward Mask 32 0 with
  | some i => (i, true)
  | none => (Index, false)

/-- Modelled from the spec: the compiler intrinsic
`_BitScanForward64(&Index, Mask)`, as `_BitScanForward` on a 64-bit mask. -/
def _BitScanForward64 (Index Mask : Nat) : Nat × Bool :=
  match scanForward Mask 64 0 with
  | some i => (i, true)
  | none => (Index, false)

/-- Modelled from the spec: the compiler intrinsic
`_BitScanReverse(&Index, Mask)`, which searches the 32-bit mask from the most
significant bit. -/
def _BitScanReverse (Index Mask : Nat) : Nat × Bool :=
  match scanReverse Mask 32 with
  | some i => (i, true)
  | none => (Index, false)

/-- Modelled from the spec: the compiler intrinsic
`_BitScanReverse64(&Index, Mask)`, as `_BitScanReverse` on a 64-bit mask. -/
def _BitScanReverse64 (Index Mask : Nat) : Nat × Bool :=
  match scanReverse Mask 64 with
  | some i => (i, true)
  | none => (Index, false)

/-! ## Leading / trailing zero count (`commons.h` lines 331-357) -/

/-- Subtraction of two `unsigned long` values (32-bit, wrapping). -/
def subUL (a b : Nat) : Nat := toU32 (toU32 a + 2 ^ 32 - toU32 b)

/-- `TZCNT_32`: forward bit scan, the `unsigned long` index returned as `int`. -/
def TZCNT_32 (value : Nat) : Int :=
  let trailing_zero : Nat := 0
  let trailing_zero := (_BitScanForward trailing_zero value).1
  toInt trailing_zero

/-- `TZCNT_64`: forward bit scan on 64 bits. -/
def TZCNT_64 (value : Nat) : Int :=
  let trailing_zero : Nat := 0
  let trailing_zero := (_BitScanForward64 trailing_zero value).1
  toInt trailing_zero

/-- Fallback `LZCNT_32`: `31 - leading_zero` in `unsigned long`, returned as
`int`. -/
def LZCNT_32 (value : Nat) : Int :=
  let leading_zero : Nat := 0
  let leading_zero := (_BitScanReverse leading_zero value).1
  toInt (subUL 31 leading_zero)

/-- Fallback `LZCNT_64`: `63 - leading_zero` in `unsigned long`, returned as
`int`. -/
def LZCNT_64 (value : Nat) : Int :=
  let leading_zero : Nat := 0
  let leading_zero := (_BitScanReverse64 leading_zero value).1
  toInt (subUL 63 leading_zero)

/-- Reference leading-zero count of the low `n` bits of `w`: the zero bits
met from bit `n - 1` downwards before the first set bit. -/
def lzcntRef (w : Nat) : Nat → Nat
  | 0 => 0
  | n + 1 => if w.testBit n then 0 else lzcntRef w n + 1

/-- Position `p` is the highest set bit of `x`: bit `p` is set and no bit
above it is. -/
def highestSetBitAt (x p : Nat) : Prop :=
  x.testBit p = true ∧ ∀ j, p < j → x.testBit j = false

/-! ## Inclusive random sampler (`commons.h` line 200) -/

/-- An argument of a function-like macro, as the text that the preprocessor
substitutes for the parameter: an additive expression `head ± t1 ± t2 ..`.
The operands (identifiers, constants, parenthesised expressions, products)
bind tighter than the binary `+` and `-` and are given by their `uint64_t`
values; in `tail`, `true` stands for `+` and `false` for `-`.  An argument
whose top operator binds weaker than `+` (a shift, a comparison, `?:`) is not
covered. -/
structure ArgExpr where
  head : Nat
  tail : List (Bool × Nat)

/-- The argument that is a single operand of value `n`. -/
def ArgExpr.single (n : Nat) : ArgExpr := ⟨n, []⟩

/-- One more operand `+ t` or `- t` applied to the value `acc` of the
expression read so far, in 64-bit unsigned arithmetic. -/
def applyTerm (acc : Nat) (t : Bool × Nat) : Nat :=
  if t.1 then toU64 (acc + toU64 t.2) else toU64 (acc + 2 ^ 64 - toU64 t.2)

/-- The operands `ts` applied from left to right to the value `acc`. -/
def evalTerms (acc : Nat) (ts : List (Bool × Nat)) : Nat := ts.foldl applyTerm acc

/-- The `uint64_t` value of an argument evaluated on its own. -/
def ArgExpr.value (e : ArgExpr) : Nat := evalTerms (toU64 e.head) e.tail

/-- Macro `rand_i(min,max)`, with the replacement text
`( min + ( rand()%(max-min+1) ) )`, on `uint64_t` operands, `r` being the
value that `rand()` returns.  The parameters are not parenthesised in the
replacement text, so in the modulus `max-min+1` the text of `min` continues
the additive chain operand by operand: its first operand is subtracted and
the others keep their own signs.  The remainder by zero is undefined and
yields `none`. -/
def rand_i (r : Nat) (min max : ArgExpr) : Option Nat :=
  let range := toU64 (evalTerms (toU64 (max.value + 2 ^ 64 - toU64 min.head)) min.tail + 1)
  if range = 0 then none
  else some (toU64 (min.value + toU64 r % range))

/-- The mask with the low `k` bits set in each of `n` fields of `2 * k` bits. -/
def fieldMask (k : Nat) : Nat → Nat
  | 0 => 0
  | n + 1 => (2 ^ k - 1) + 2 ^ (2 * k) * fieldMask k n

/-- Sum of the `n` lowest base-`2^k` digits (fields of `k` bits) of `v`. -/
def fieldSum (k : Nat) : Nat → Nat → Nat
  | 0, _ => 0
  | n + 1, v => v % 2 ^ k + fieldSum k n (v / 2 ^ k)

/-- One mask-shift-add round of the popcount fallback, without wrap. -/
def swarRound (k m v : Nat) : Nat := (v &&& m) + ((v >>> k) &&& m)

/-! ## Rounds of the popcount fallback, one assignment at a time -/

/-- The `k`-th assignment to `value` in `POPCOUNT_64` (`k = 1..6`, lines
281-286). -/
def POPCOUNT_64_round (k value : Nat) : Nat :=
  let m01 : Nat := 0x5555555555555555
  let m02 : Nat := 0x3333333333333333
  let m04 : Nat := 0x0f0f0f0f0f0f0f0f
  let m08 : Nat := 0x00ff00ff00ff00ff
  let m16 : Nat := 0x0000ffff0000ffff
  let m32 : Nat := 0x00000000ffffffff
  match k with
  | 1 => toU64 ((value &&& m01) + ((value >>> 1) &&& m01))
  | 2 => toU64 ((value &&& m02) + ((value >>> 2) &&& m02))
  | 3 => toU64 ((value &&& m04) + ((value >>> 4) &&& m04))
  | 4 => toU64 ((value &&& m08) + ((value >>> 8) &&& m08))
  | 5 => toU64 ((value &&& m16) + ((value >>> 16) &&& m16))
  | 6 => toU64 ((value &&& m32) + ((value >>> 32) &&& m32))
  | _ => value

/-- The working `value` of `POPCOUNT_64` after its first `k` assignments. -/
def POPCOUNT_64_after : Nat → Nat → Nat
  | 0, value => value
  | k + 1, value => POPCOUNT_64_round (k + 1) (POPCOUNT_64_after k value)

/-- The `k`-th assignment to `value` in `POPCOUNT_32` (`k = 1..5`, lines
295-299). -/
def POPCOUNT_32_round (k value : Nat) : Nat :=
  let m01 : Nat := 0x55555555
  let m02 : Nat := 0x33333333
  let m04 : Nat := 0x0f0f0f0f
  let m08 : Nat := 0x00ff00ff
  let m16 : Nat := 0x0000ffff
  match k with
  | 1 => toU32 (toU64 ((value &&& m01) + ((value >>> 1) &&& m01)))
  | 2 => toU32 (toU64 ((value &&& m02) + ((value >>> 2) &&& m02)))
  | 3 => toU32 (toU64 ((value &&& m04) + ((value >>> 4) &&& m04)))
  | 4 => toU32 (toU64 ((value &&& m08) + ((value >>> 8) &&& m08)))
  | 5 => toU32 (toU64 ((value &&& m16) + ((value >>> 16) &&& m16)))
  | _ => value

/-- The working `value` of `POPCOUNT_32` after its first `k` assignments. -/
def POPCOUNT_32_after : Nat → Nat → Nat
  | 0, value => value
  | k + 1, value => POPCOUNT_32_round (k + 1) (POPCOUNT_32_after k value)

/-- The aligned field number `j` of `k` bits of `v`, read as a binary number. -/
def field (k j v : Nat) : Nat := v / 2 ^ (k * j) % 2 ^ k

/-- Number of set bits of `w` at the positions `s, s + 1, .., s + len - 1`. -/
def bitsIn (w s len : Nat) : Nat :=
  ((List.range len).filter (fun i => w.testBit (s + i))).length

/-! ## Math macros (`commons.h` lines 226-233), on `uint64_t` operands -/

/-- Macro `BOUNDED_SUBTRACTION(minuend,subtrahend,limit)`. -/
def BOUNDED_SUBTRACTION (minuend subtrahend limit : Nat) : Nat :=
  if minuend > toU64 (limit + subtrahend) then toU64 (minuend + 2 ^ 64 - subtrahend)
  else limit

/-- Macro `BOUNDED_ADDITION(summand_A,summand_B,limit)`. -/
def BOUNDED_ADDITION (summand_A summand_B limit : Nat) : Nat :=
  if toU64 (summand_A + summand_B) < limit then toU64 (summand_A + summand_B)
  else limit

/-- Macro `DIV_FLOOR(NUMERATOR,DENOMINATOR)`; the division by zero is
undefined and yields `none`. -/
def DIV_FLOOR (NUMERATOR DENOMINATOR : Nat) : Option Nat :=
  if DENOMINATOR = 0 then none else some (NUMERATOR / DENOMINATOR)

/-- Macro `DIV_CEIL(NUMERATOR,DENOMINATOR)`:
`((NUMERATOR)+((DENOMINATOR)-1))/(DENOMINATOR)` in 64-bit unsigned
arithmetic; the division by zero is undefined and yields `none`. -/
def DIV_CEIL (NUMERATOR DENOMINATOR : Nat) : Option Nat :=
  if DENOMINATOR = 0 then none
  else some (toU64 (NUMERATOR + toU64 (DENOMINATOR + 2 ^ 64 - 1)) / DENOMINATOR)

/-- Macro `DIVC_FLOOR(NUMERATOR,DENOMINATOR)`. -/
def DIVC_FLOOR (NUMERATOR DENOMINATOR : Nat) : Option Nat :=
  if DENOMINATOR ≠ 0 then DIV_FLOOR NUMERATOR DENOMINATOR else some 0

/-- Macro `DIVC_CEIL(NUMERATOR,DENOMINATOR)`. -/
def DIVC_CEIL (NUMERATOR DENOMINATOR : Nat) : Option Nat :=
  if DENOMINATOR ≠ 0 then DIV_CEIL NUMERATOR DENOMINATOR else some 0

/-! ## Parsing macros (`commons.h` lines 207-221), on `int` character codes -/

/-- The code of a character constant, as the `int` the C constant has. -/
def chr (c : Char) : Int := (c.toNat : Int)

/-- Macro `IS_NUMBER(character)`. -/
def IS_NUMBER (character : Int) : Bool :=
  decide (chr '0' ≤ character) && decide (character ≤ chr '9')

/-- Macro `IS_HEX_DIGIT(character)`. -/
def IS_HEX_DIGIT (character : Int) : Bool :=
  IS_NUMBER character || (decide (chr 'a' ≤ character) && decide (character ≤ chr 'f'))
    || (decide (chr 'A' ≤ character) && decide (character ≤ chr 'F'))

/-- Macro `GET_DIGIT(character)`. -/
def GET_DIGIT (character : Int) : Int := character - chr '0'

/-- Modelled from the spec: the C library function `toupper`, as ASCII
upper-casing (its body is not part of `commons.h`). -/
def toupper (c : Int) : Int :=
  if chr 'a' ≤ c ∧ c ≤ chr 'z' then c - (chr 'a' - chr 'A') else c

/-- Macro `GET_HEX_DIGIT(character)`. -/
def GET_HEX_DIGIT (character : Int) : Int :=
  if IS_NUMBER character then GET_DIGIT character
  else toupper character - chr 'A' + 10

/-- The hexadecimal digits in the order of their values, lower case. -/
def hexLower : List Int :=
  ("0123456789abcdef".toList).map chr

/-- The hexadecimal digits in the order of their values, upper case. -/
def hexUpper : List Int :=
  ("0123456789ABCDEF".toList).map chr

/-- Reference value of a hexadecimal digit: its position in the digit
sequence `0123456789abcdef` (or `0123456789ABCDEF`). -/
def hexValueRef (c : Int) : Int :=
  if c ∈ hexLower then (hexLower.indexOf c : Nat) else (hexUpper.indexOf c : Nat)

/-! ## Bitwise lemmas -/

theorem land_concat (j a b c d : Nat) (ha : a < 2 ^ j) (hc : c < 2 ^ j) :
    (a + 2 ^ j * b) &&& (c + 2 ^ j * d) = (a &&& c) + 2 ^ j * (b &&& d) := by
  have hac : a &&& c < 2 ^ j := Nat.and_lt_two_pow a hc
  apply Nat.eq_of_testBit_eq
  intro i
  rw [Nat.add_comm (a &&& c), Nat.testBit_mul_pow_two_add _ hac, Nat.testBit_and,
    Nat.add_comm a, Nat.add_comm c, Nat.testBit_mul_pow_two_add _ ha,
    Nat.testBit_mul_pow_two_add _ hc]
  split <;> simp

theorem land_fieldMask_succ (k n x : Nat) :
    x &&& fieldMask k (n + 1)
      = x % 2 ^ k + 2 ^ (2 * k) * ((x / 2 ^ (2 * k)) &&& fieldMask k n) := by
  have hk : 2 ^ k - 1 < 2 ^ (2 * k) := by
    have h1 : 2 ^ k ≤ 2 ^ (2 * k) := Nat.pow_le_pow_right (by norm_num) (by omega)
    have h2 : 0 < 2 ^ k := Nat.pos_pow_of_pos k (by norm_num)
    omega
  have hx : x % 2 ^ (2 * k) < 2 ^ (2 * k) := Nat.mod_lt _ (Nat.pos_pow_of_pos _ (by norm_num))
  have hdvd : 2 ^ k ∣ 2 ^ (2 * k) := pow_dvd_pow 2 (by omega)
  conv_lhs => rw [← Nat.mod_add_div x (2 ^ (2 * k))]
  rw [fieldMask, land_concat _ _ _ _ _ hx hk, Nat.and_pow_two_sub_one_eq_mod,
    Nat.mod_mod_of_dvd _ hdvd]

theorem swarRound_succ (k n v : Nat) :
    swarRound k (fieldMask k (n + 1)) v
      = (v % 2 ^ k + v / 2 ^ k % 2 ^ k)
        + 2 ^ (2 * k) * swarRound k (fieldMask k n) (v / 2 ^ (2 * k)) := by
  have e : v >>> k / 2 ^ (2 * k) = (v / 2 ^ (2 * k)) >>> k := by
    rw [Nat.shiftRight_eq_div_pow, Nat.shiftRight_eq_div_pow, Nat.div_div_eq_div_mul,
      Nat.div_div_eq_div_mul, Nat.mul_comm]
  unfold swarRound
  rw [land_fieldMask_succ, land_fieldMask_succ, e, Nat.shiftRight_eq_div_pow v k]
  ring

theorem two_pow_double_le (k : Nat) (hk : 1 ≤ k) : 2 * 2 ^ k ≤ 2 ^ (2 * k) := by
  have h : 2 ^ (k + 1) ≤ 2 ^ (2 * k) := Nat.pow_le_pow_right (by norm_num) (by omega)
  rw [pow_succ] at h
  omega

/-- A round with field width `k` on `n` double fields replaces every double
field by the sum of its two halves, without a carry between fields. -/
theorem swarRound_spec (k : Nat) (hk : 1 ≤ k) (n v : Nat) (hv : v < 2 ^ (2 * k * n)) :
    swarRound k (fieldMask k n) v < 2 ^ (2 * k * n)
      ∧ fieldSum (2 * k) n (swarRound k (fieldMask k n) v) = fieldSum k (2 * n) v := by
  induction n generalizing v with
  | zero =>
    simp at hv
    subst hv
    simp [swarRound, fieldMask, fieldSum]
  | succ n ih =>
    have hpos : 0 < 2 ^ (2 * k) := Nat.pos_pow_of_pos _ (by norm_num)
    have hkpos : 0 < 2 ^ k := Nat.pos_pow_of_pos _ (by norm_num)
    have hsplit : 2 ^ (2 * k * (n + 1)) = 2 ^ (2 * k) * 2 ^ (2 * k * n) := by
      rw [← pow_add]; congr 1; ring
    have hq : v / 2 ^ (2 * k) < 2 ^ (2 * k * n) := by
      rw [Nat.div_lt_iff_lt_mul hpos, Nat.mul_comm, ← hsplit]; exact hv
    obtain ⟨ihb, ihs⟩ := ih (v / 2 ^ (2 * k)) hq
    have hlo : v % 2 ^ k + v / 2 ^ k % 2 ^ k < 2 ^ (2 * k) := by
      have h1 : v % 2 ^ k < 2 ^ k := Nat.mod_lt _ hkpos
      have h2 : v / 2 ^ k % 2 ^ k < 2 ^ k := Nat.mod_lt _ hkpos
      have h3 := two_pow_double_le k hk
      omega
    rw [swarRound_succ]
    constructor
    · rw [hsplit]
      calc v % 2 ^ k + v / 2 ^ k % 2 ^ k
              + 2 ^ (2 * k) * swarRound k (fieldMask k n) (v / 2 ^ (2 * k))
          < 2 ^ (2 * k) + 2 ^ (2 * k) * swarRound k (fieldMask k n) (v / 2 ^ (2 * k)) := by
            omega
        _ = 2 ^ (2 * k) * (swarRound k (fieldMask k n) (v / 2 ^ (2 * k)) + 1) := by ring
        _ ≤ 2 ^ (2 * k) * 2 ^ (2 * k * n) := Nat.mul_le_mul_left _ ihb
    · have e2 : 2 * (n + 1) = (2 * n + 1) + 1 := by ring
      have e3 : v / 2 ^ k / 2 ^ k = v / 2 ^ (2 * k) := by
        rw [Nat.div_div_eq_div_mul, ← pow_add]; congr 2; ring
      rw [e2, fieldSum, fieldSum, fieldSum, Nat.add_mul_mod_self_left, Nat.mod_eq_of_lt hlo,
        Nat.add_mul_div_left _ _ hpos, Nat.div_eq_of_lt hlo, Nat.zero_add, ihs, e3]
      ring

theorem popcountRef_succ (n w : Nat) :
    popcountRef (n + 1) w = w % 2 + popcountRef n (w / 2) := by
  unfold popcountRef
  have h : ((fun i => w.testBit i) ∘ Nat.succ) = (fun i => (w / 2).testBit i) := by
    funext i
    simp [Nat.testBit_succ]
  rw [List.range_succ_eq_map, List.filter_cons, List.filter_map, h]
  rcases Nat.mod_two_eq_zero_or_one w with h0 | h1
  · simp [h0]
  · simp [h1]; omega

theorem fieldSum_one (n w : Nat) : fieldSum 1 n w = popcountRef n w := by
  induction n generalizing w with
  | zero => simp [fieldSum, popcountRef]
  | succ n ih => rw [fieldSum, popcountRef_succ, ih]; simp

theorem popcountRef_le (n w : Nat) : popcountRef n w ≤ n := by
  unfold popcountRef
  calc ((List.range n).filter (fun i => w.testBit i)).length
      ≤ (List.range n).length := List.length_filter_le _ _
    _ = n := List.length_range n

theorem toInt_of_lt (n : Nat) (h : n < 2 ^ 31) : toInt n = (n : Int) := by
  have h1 : n % 2 ^ 32 = n := Nat.mod_eq_of_lt (by omega)
  unfold toInt
  rw [h1, if_pos h]

/-- A 64-bit round as the code writes it: the wrap to `uint64_t` is the
identity and the field sums are preserved. -/
theorem round64 (k n m v : Nat) (hk : 1 ≤ k) (hm : fieldMask k n = m)
    (hn : 2 * k * n = 64) (hv : v < 2 ^ 64) :
    toU64 ((v &&& m) + ((v >>> k) &&& m)) < 2 ^ 64
      ∧ fieldSum (2 * k) n (toU64 ((v &&& m) + ((v >>> k) &&& m))) = fieldSum k (2 * n) v := by
  have h := swarRound_spec k hk n v (by rw [hn]; exact hv)
  rw [hn, hm] at h
  unfold swarRound at h
  unfold toU64
  rw [Nat.mod_eq_of_lt h.1]
  exact h

/-- A 32-bit round as the code writes it: neither the 64-bit evaluation nor
the store into the `uint32_t` parameter changes the value. -/
theorem round32 (k n m v : Nat) (hk : 1 ≤ k) (hm : fieldMask k n = m)
    (hn : 2 * k * n = 32) (hv : v < 2 ^ 32) :
    toU32 (toU64 ((v &&& m) + ((v >>> k) &&& m))) < 2 ^ 32
      ∧ fieldSum (2 * k) n (toU32 (toU64 ((v &&& m) + ((v >>> k) &&& m))))
          = fieldSum k (2 * n) v := by
  have h := swarRound_spec k hk n v (by rw [hn]; exact hv)
  rw [hn, hm] at h
  unfold swarRound at h
  unfold toU32 toU64
  rw [Nat.mod_eq_of_lt (lt_trans h.1 (by norm_num)), Nat.mod_eq_of_lt h.1]
  exact h

theorem fieldSum_single (k v : Nat) (hv : v < 2 ^ k) : fieldSum k 1 v = v := by
  simp [fieldSum, Nat.mod_eq_of_lt hv]

theorem POPCOUNT_64_eq (w : Nat) (hw : w < 2 ^ 64) :
    POPCOUNT_64 w = (popcountRef 64 w : Int) := by
  obtain ⟨b1, s1⟩ := round64 1 32 0x5555555555555555 w (by norm_num)
    (by norm_num [fieldMask]) (by norm_num) hw
  obtain ⟨b2, s2⟩ := round64 2 16 0x3333333333333333 _ (by norm_num)
    (by norm_num [fieldMask]) (by norm_num) b1
  obtain ⟨b3, s3⟩ := round64 4 8 0x0f0f0f0f0f0f0f0f _ (by norm_num)
    (by norm_num [fieldMask]) (by norm_num) b2
  obtain ⟨b4, s4⟩ := round64 8 4 0x00ff00ff00ff00ff _ (by norm_num)
    (by norm_num [fieldMask]) (by norm_num) b3
  obtain ⟨b5, s5⟩ := round64 16 2 0x0000ffff0000ffff _ (by norm_num)
    (by norm_num [fieldMask]) (by norm_num) b4
  obtain ⟨b6, s6⟩ := round64 32 1 0x00000000ffffffff _ (by norm_num)
    (by norm_num [fieldMask]) (by norm_num) b5
  norm_num at s1 s2 s3 s4 s5 s6
  rw [fieldSum_single 64 _ b6, s5, s4, s3, s2, s1, fieldSum_one] at s6
  have hle := popcountRef_le 64 w
  unfold POPCOUNT_64
  simp only []
  rw [s6, toInt_of_lt _ (by omega)]

theorem POPCOUNT_32_eq (w : Nat) (hw : w < 2 ^ 32) :
    POPCOUNT_32 w = (popcountRef 32 w : Int) := by
  obtain ⟨b1, s1⟩ := round32 1 16 0x55555555 w (by norm_num)
    (by norm_num [fieldMask]) (by norm_num) hw
  obtain ⟨b2, s2⟩ := round32 2 8 0x33333333 _ (by norm_num)
    (by norm_num [fieldMask]) (by norm_num) b1
  obtain ⟨b3, s3⟩ := round32 4 4 0x0f0f0f0f _ (by norm_num)
    (by norm_num [fieldMask]) (by norm_num) b2
  obtain ⟨b4, s4⟩ := round32 8 2 0x00ff00ff _ (by norm_num)
    (by norm_num [fieldMask]) (by norm_num) b3
  obtain ⟨b5, s5⟩ := round32 16 1 0x0000ffff _ (by norm_num)
    (by norm_num [fieldMask]) (by norm_num) b4
  norm_num at s1 s2 s3 s4 s5
  rw [fieldSum_single 32 _ b5, s4, s3, s2, s1, fieldSum_one] at s5
  have hle := popcountRef_le 32 w
  unfold POPCOUNT_32
  simp only []
  rw [s5, toInt_of_lt _ (by omega)]

/-! ## Bit-scan lemmas -/

theorem scanReverse_some (w : Nat) : ∀ (n h : Nat), scanReverse w n = some h →
    h < n ∧ w.testBit h = true ∧ ∀ j, h < j → j < n → w.testBit j = false := by
  intro n
  induction n with
  | zero => intro h hs; simp [scanReverse] at hs
  | succ n ih =>
    intro h hs
    unfold scanReverse at hs
    by_cases hb : w.testBit n = true
    · rw [if_pos hb] at hs
      injection hs with hs
      subst hs
      exact ⟨Nat.lt_succ_self _, hb, fun j h1 h2 => absurd h1 (by omega)⟩
    · rw [if_neg hb] at hs
      obtain ⟨h1, h2, h3⟩ := ih h hs
      refine ⟨Nat.lt_succ_of_lt h1, h2, fun j hj1 hj2 => ?_⟩
      by_cases hjn : j = n
      · subst hjn; simpa using hb
      · exact h3 j hj1 (by omega)

theorem scanReverse_isSome (w : Nat) : ∀ (n i : Nat), i < n → w.testBit i = true →
    ∃ h, scanReverse w n = some h := by
  intro n
  induction n with
  | zero => intro i hi; omega
  | succ n ih =>
    intro i hi hb
    unfold scanReverse
    by_cases hn : w.testBit n = true
    · exact ⟨n, by rw [if_pos hn]⟩
    · rw [if_neg hn]
      have hin : i ≠ n := fun e => hn (e ▸ hb)
      exact ih i (by omega) hb

theorem scanForward_some (w : Nat) : ∀ (n i t : Nat), scanForward w n i = some t →
    i ≤ t ∧ t < i + n ∧ w.testBit t = true ∧ ∀ j, i ≤ j → j < t → w.testBit j = false := by
  intro n
  induction n with
  | zero => intro i t hs; simp [scanForward] at hs
  | succ n ih =>
    intro i t hs
    unfold scanForward at hs
    by_cases hb : w.testBit i = true
    · rw [if_pos hb] at hs
      injection hs with hs
      subst hs
      exact ⟨le_refl _, by omega, hb, fun j h1 h2 => absurd h1 (by omega)⟩
    · rw [if_neg hb] at hs
      obtain ⟨h1, h2, h3, h4⟩ := ih (i + 1) t hs
      refine ⟨by omega, by omega, h3, fun j hj1 hj2 => ?_⟩
      by_cases hji : j = i
      · subst hji; simpa using hb
      · exact h4 j (by omega) hj2

theorem scanForward_isSome (w : Nat) : ∀ (n i j : Nat), i ≤ j → j < i + n →
    w.testBit j = true → ∃ t, scanForward w n i = some t := by
  intro n
  induction n with
  | zero => intro i j h1 h2; omega
  | succ n ih =>
    intro i j h1 h2 hb
    unfold scanForward
    by_cases hi : w.testBit i = true
    · exact ⟨i, by rw [if_pos hi]⟩
    · rw [if_neg hi]
      have hji : j ≠ i := fun e => hi (e ▸ hb)
      exact ih (i + 1) j (by omega) (by omega) hb

theorem testBit_false_of_lt (w n j : Nat) (hw : w < 2 ^ n) (hj : n ≤ j) :
    w.testBit j = false :=
  Nat.testBit_lt_two_pow (lt_of_lt_of_le hw (Nat.pow_le_pow_right (by norm_num) hj))

theorem exists_bit_lt (w n : Nat) (hw : w ≠ 0) (hn : w < 2 ^ n) :
    ∃ i, i < n ∧ w.testBit i = true := by
  obtain ⟨i, hi⟩ := Nat.ne_zero_implies_bit_true hw
  refine ⟨i, ?_, hi⟩
  by_contra hlt
  rw [testBit_false_of_lt w n i hn (by omega)] at hi
  exact Bool.noConfusion hi

/-- The reverse scan of a nonzero `n`-bit word finds its highest set bit. -/
theorem scanReverse_spec (w n : Nat) (hw : w ≠ 0) (hn : w < 2 ^ n) :
    ∃ h, scanReverse w n = some h ∧ h < n ∧ w.testBit h = true
      ∧ ∀ j, h < j → w.testBit j = false := by
  obtain ⟨i, hi, hb⟩ := exists_bit_lt w n hw hn
  obtain ⟨h, hs⟩ := scanReverse_isSome w n i hi hb
  obtain ⟨h1, h2, h3⟩ := scanReverse_some w n h hs
  refine ⟨h, hs, h1, h2, fun j hj => ?_⟩
  by_cases hjn : j < n
  · exact h3 j hj hjn
  · exact testBit_false_of_lt w n j hn (by omega)

/-- The forward scan of a nonzero `n`-bit word finds its lowest set bit. -/
theorem scanForward_spec (w n : Nat) (hw : w ≠ 0) (hn : w < 2 ^ n) :
    ∃ t, scanForward w n 0 = some t ∧ t < n ∧ w.testBit t = true
      ∧ ∀ j, j < t → w.testBit j = false := by
  obtain ⟨i, hi, hb⟩ := exists_bit_lt w n hw hn
  obtain ⟨t, hs⟩ := scanForward_isSome w n 0 i (Nat.zero_le _) (by omega) hb
  obtain ⟨_, h2, h3, h4⟩ := scanForward_some w n 0 t hs
  exact ⟨t, hs, by omega, h3, fun j hj => h4 j (Nat.zero_le _) hj⟩

/-! ## Values of the zero counts -/

theorem subUL_toInt (c h : Nat) (hc : c < 2 ^ 31) (hh : h ≤ c) :
    subUL c h = c - h ∧ toInt (subUL c h) = (c : Int) - (h : Int) := by
  have e : subUL c h = c - h := by
    unfold subUL toU32
    rw [Nat.mod_eq_of_lt (show c < 2 ^ 32 by omega), Nat.mod_eq_of_lt (show h < 2 ^ 32 by omega)]
    omega
  refine ⟨e, ?_⟩
  rw [e, toInt_of_lt _ (by omega)]
  omega

theorem LZCNT_32_val (w : Nat) (hw : w ≠ 0) (hn : w < 2 ^ 32) :
    ∃ h, h < 32 ∧ w.testBit h = true ∧ (∀ j, h < j → w.testBit j = false)
      ∧ (_BitScanReverse 0 w).1 = h ∧ LZCNT_32 w = 31 - (h : Int) := by
  obtain ⟨h, hs, h1, h2, h3⟩ := scanReverse_spec w 32 hw hn
  have e : (_BitScanReverse 0 w).1 = h := by unfold _BitScanReverse; rw [hs]
  refine ⟨h, h1, h2, h3, e, ?_⟩
  have := (subUL_toInt 31 h (by norm_num) (by omega)).2
  unfold LZCNT_32
  simp only [e]
  simpa using this

theorem LZCNT_64_val (w : Nat) (hw : w ≠ 0) (hn : w < 2 ^ 64) :
    ∃ h, h < 64 ∧ w.testBit h = true ∧ (∀ j, h < j → w.testBit j = false)
      ∧ (_BitScanReverse64 0 w).1 = h ∧ LZCNT_64 w = 63 - (h : Int) := by
  obtain ⟨h, hs, h1, h2, h3⟩ := scanReverse_spec w 64 hw hn
  have e : (_BitScanReverse64 0 w).1 = h := by unfold _BitScanReverse64; rw [hs]
  refine ⟨h, h1, h2, h3, e, ?_⟩
  have := (subUL_toInt 63 h (by norm_num) (by omega)).2
  unfold LZCNT_64
  simp only [e]
  simpa using this

theorem TZCNT_32_val (w : Nat) (hw : w ≠ 0) (hn : w < 2 ^ 32) :
    ∃ t, t < 32 ∧ w.testBit t = true ∧ (∀ j, j < t → w.testBit j = false)
      ∧ TZCNT_32 w = (t : Int) := by
  obtain ⟨t, hs, h1, h2, h3⟩ := scanForward_spec w 32 hw hn
  have e : (_BitScanForward 0 w).1 = t := by unfold _BitScanForward; rw [hs]
  refine ⟨t, h1, h2, h3, ?_⟩
  unfold TZCNT_32
  simp only [e]
  exact toInt_of_lt t (by omega)

theorem TZCNT_64_val (w : Nat) (hw : w ≠ 0) (hn : w < 2 ^ 64) :
    ∃ t, t < 64 ∧ w.testBit t = true ∧ (∀ j, j < t → w.testBit j = false)
      ∧ TZCNT_64 w = (t : Int) := by
  obtain ⟨t, hs, h1, h2, h3⟩ := scanForward_spec w 64 hw hn
  have e : (_BitScanForward64 0 w).1 = t := by unfold _BitScanForward64; rw [hs]
  refine ⟨t, h1, h2, h3, ?_⟩
  unfold TZCNT_64
  simp only [e]
  exact toInt_of_lt t (by omega)

/-- Two positions that are both the highest set bit of `w` coincide. -/
theorem highest_unique (w h k : Nat) (h1 : w.testBit h = true)
    (h2 : ∀ j, h < j → w.testBit j = false) (k1 : w.testBit k = true)
    (k2 : ∀ j, k < j → w.testBit j = false) : h = k := by
  rcases Nat.lt_trichotomy h k with hlt | heq | hgt
  · rw [h2 k hlt] at k1; exact Bool.noConfusion k1
  · exact heq
  · rw [k2 h hgt] at h1; exact Bool.noConfusion h1

theorem count_above (h : Nat) : ∀ n : Nat,
    ((List.range n).filter (fun i => decide (h < i))).length = n - (h + 1) := by
  intro n
  induction n with
  | zero => simp
  | succ n ih =>
    rw [List.range_succ, List.filter_append, List.length_append, ih]
    by_cases hn : h < n
    · simp [hn]; omega
    · simp [hn]; omega

theorem count_zero_above (w h n : Nat) (h2 : ∀ j, h < j → w.testBit j = false) :
    ((List.range n).filter (fun i => decide (h < i) && !w.testBit i)).length
      = n - (h + 1) := by
  rw [← count_above h n]
  congr 1
  apply List.filter_congr
  intro i _
  by_cases hi : h < i
  · simp [hi, h2 i hi]
  · simp [hi]

theorem lzcntRef_eq (w h : Nat) (h1 : w.testBit h = true)
    (h2 : ∀ j, h < j → w.testBit j = false) : ∀ n, h < n → lzcntRef w n = n - (h + 1) := by
  intro n
  induction n with
  | zero => intro hn; omega
  | succ n ih =>
    intro hn
    unfold lzcntRef
    by_cases e : h = n
    · subst e; rw [if_pos h1]; omega
    · have hb : w.testBit n = false := h2 n (by omega)
      rw [hb, ih (by omega)]
      simp
      omega

theorem popcountRef_succ_top (n w : Nat) :
    popcountRef (n + 1) w = popcountRef n w + (if w.testBit n = true then 1 else 0) := by
  unfold popcountRef
  rw [List.range_succ, List.filter_append, List.length_append]
  by_cases hb : w.testBit n = true
  · simp [hb]
  · simp [hb]

/-- The set bits of `w` all lie between its lowest set bit `t` and its highest
set bit `h`, so among the low `n` positions the set bits, the positions below
`t` and the positions above `h` are disjoint. -/
theorem popcountRef_window (w t h : Nat) (hth : t ≤ h)
    (ht : ∀ j, j < t → w.testBit j = false) (hh : ∀ j, h < j → w.testBit j = false) :
    ∀ n, popcountRef n w + min t n + (n - (h + 1)) ≤ n := by
  intro n
  induction n with
  | zero => simp [popcountRef]
  | succ n ih =>
    rw [popcountRef_succ_top]
    by_cases h1 : n < t
    · rw [ht n h1]; simp; omega
    · by_cases h2 : h < n
      · rw [hh n h2]; simp; omega
      · split <;> omega

/-- A compound argument for `min` is not kept together: `rand_i(1 + 1, 5)`
expands to `1 + 1 + (r % (5 - 1 + 1 + 1))`, which for `r = 5` is `7`. -/
theorem rand_i_compound_min :
    (ArgExpr.mk 1 [(true, 1)]).value = 2 ∧ (ArgExpr.single 5).value = 5
    ∧ rand_i 5 (ArgExpr.mk 1 [(true, 1)]) (ArgExpr.single 5) = some 7 := by
  decide

/-! ## Population count: correctness and range -/

/-- C1: for every 64-bit word `w`, the fallback `POPCOUNT_64 w` equals the
number of indices `i` in `0..63` whose bit `i` of `w` is set. -/
theorem C1_POPCOUNT_64_counts_set_bits (w : Nat) (hw : w < 2 ^ 64) :
    POPCOUNT_64 w = (((List.range 64).filter (fun i => w.testBit i)).length : Int) :=
  POPCOUNT_64_eq w hw

theorem C1_POPCOUNT_64_counts_set_bits_witness :
    (0xF0F0F0F0F0F0F0F1 : Nat) < 2 ^ 64 ∧
    POPCOUNT_64 0xF0F0F0F0F0F0F0F1
      = (((List.range 64).filter
          (fun i => (0xF0F0F0F0F0F0F0F1 : Nat).testBit i)).length : Int) :=
  ⟨by decide, C1_POPCOUNT_64_counts_set_bits 0xF0F0F0F0F0F0F0F1 (by decide)⟩

/-- C2: for every 32-bit word `w`, the fallback `POPCOUNT_32 w` equals the
number of set bits among bits `0..31` of `w`. -/
theorem C2_POPCOUNT_32_counts_set_bits (w : Nat) (hw : w < 2 ^ 32) :
    POPCOUNT_32 w = (((List.range 32).filter (fun i => w.testBit i)).length : Int) :=
  POPCOUNT_32_eq w hw

theorem C2_POPCOUNT_32_counts_set_bits_witness :
    (0xDEADBEEF : Nat) < 2 ^ 32 ∧
    POPCOUNT_32 0xDEADBEEF
      = (((List.range 32).filter (fun i => (0xDEADBEEF : Nat).testBit i)).length : Int) :=
  ⟨by decide, C2_POPCOUNT_32_counts_set_bits 0xDEADBEEF (by decide)⟩

/-! ## Leading / trailing zero count: correctness -/

/-- C3: for every nonzero 32-bit word `w`, `LZCNT_32 w` is `31` minus the
index `h` of the highest set bit, which is the number of (zero) bits above
`h` and the count of zero bits met from bit 31 downwards; likewise, for
every nonzero 64-bit word, `LZCNT_64 w` is `63` minus that index. -/
theorem C3_LZCNT_leading_zeros (w : Nat) (hw : w ≠ 0) (h64 : w < 2 ^ 64) :
    (w < 2 ^ 32 → ∃ h, h < 32 ∧ w.testBit h = true ∧ (∀ j, h < j → w.testBit j = false)
        ∧ LZCNT_32 w = 31 - (h : Int)
        ∧ LZCNT_32 w
            = (((List.range 32).filter (fun i => decide (h < i) && !w.testBit i)).length : Int)
        ∧ LZCNT_32 w = (lzcntRef w 32 : Int))
    ∧ (∃ h, h < 64 ∧ w.testBit h = true ∧ (∀ j, h < j → w.testBit j = false)
        ∧ LZCNT_64 w = 63 - (h : Int)
        ∧ LZCNT_64 w
            = (((List.range 64).filter (fun i => decide (h < i) && !w.testBit i)).length : Int)
        ∧ LZCNT_64 w = (lzcntRef w 64 : Int)) := by
  constructor
  · intro h32
    obtain ⟨h, h1, h2, h3, _, h5⟩ := LZCNT_32_val w hw h32
    refine ⟨h, h1, h2, h3, h5, ?_, ?_⟩
    · rw [count_zero_above w h 32 h3, h5]; omega
    · rw [lzcntRef_eq w h h2 h3 32 h1, h5]; omega
  · obtain ⟨h, h1, h2, h3, _, h5⟩ := LZCNT_64_val w hw h64
    refine ⟨h, h1, h2, h3, h5, ?_, ?_⟩
    · rw [count_zero_above w h 64 h3, h5]; omega
    · rw [lzcntRef_eq w h h2 h3 64 h1, h5]; omega

theorem C3_LZCNT_leading_zeros_witness :
    (0x00012345 : Nat) ≠ 0 ∧ (0x00012345 : Nat) < 2 ^ 64 ∧ (0x00012345 : Nat) < 2 ^ 32
    ∧ (∃ h, h < 32 ∧ (0x00012345 : Nat).testBit h = true
        ∧ (∀ j, h < j → (0x00012345 : Nat).testBit j = false)
        ∧ LZCNT_32 0x00012345 = 31 - (h : Int)
        ∧ LZCNT_32 0x00012345
            = (((List.range 32).filter
                (fun i => decide (h < i) && !(0x00012345 : Nat).testBit i)).length : Int)
        ∧ LZCNT_32 0x00012345 = (lzcntRef 0x00012345 32 : Int)) :=
  ⟨by decide, by decide, by decide,
    (C3_LZCNT_leading_zeros 0x00012345 (by decide) (by decide)).1 (by decide)⟩

/-- C4: for every nonzero 32-bit (resp. 64-bit) word `w`, `TZCNT_32 w` (resp.
`TZCNT_64 w`) is an index `t` such that bit `t` of `w` is set and all bits
below `t` are clear. -/
theorem C4_TZCNT_lowest_set_bit (w : Nat) (hw : w ≠ 0) (h64 : w < 2 ^ 64) :
    (w < 2 ^ 32 → ∃ t : Nat, TZCNT_32 w = (t : Int) ∧ t < 32 ∧ w.testBit t = true
        ∧ ∀ j, j < t → w.testBit j = false)
    ∧ (∃ t : Nat, TZCNT_64 w = (t : Int) ∧ t < 64 ∧ w.testBit t = true
        ∧ ∀ j, j < t → w.testBit j = false) := by
  constructor
  · intro h32
    obtain ⟨t, h1, h2, h3, h4⟩ := TZCNT_32_val w hw h32
    exact ⟨t, h4, h1, h2, h3⟩
  · obtain ⟨t, h1, h2, h3, h4⟩ := TZCNT_64_val w hw h64
    exact ⟨t, h4, h1, h2, h3⟩

theorem C4_TZCNT_lowest_set_bit_witness :
    (0x00A40000 : Nat) ≠ 0 ∧ (0x00A40000 : Nat) < 2 ^ 64
    ∧ (∃ t : Nat, TZCNT_64 0x00A40000 = (t : Int) ∧ t < 64
        ∧ (0x00A40000 : Nat).testBit t = true
        ∧ ∀ j, j < t → (0x00A40000 : Nat).testBit j = false) :=
  ⟨by decide, by decide, (C4_TZCNT_lowest_set_bit 0x00A40000 (by decide) (by decide)).2⟩

/-- C5: the value returned by the fallback `POPCOUNT_32` lies in `[0, 32]`
for every 32-bit word and the value returned by the fallback `POPCOUNT_64`
lies in `[0, 64]` for every 64-bit word, the cast to `int` included. -/
theorem C5_POPCOUNT_range (w : Nat) (h64 : w < 2 ^ 64) :
    (w < 2 ^ 32 → 0 ≤ POPCOUNT_32 w ∧ POPCOUNT_32 w ≤ 32)
    ∧ (0 ≤ POPCOUNT_64 w ∧ POPCOUNT_64 w ≤ 64) := by
  constructor
  · intro h32
    have := popcountRef_le 32 w
    rw [POPCOUNT_32_eq w h32]
    omega
  · have := popcountRef_le 64 w
    rw [POPCOUNT_64_eq w h64]
    omega

theorem C5_POPCOUNT_range_witness :
    (0xFFFFFFFF : Nat) < 2 ^ 64
    ∧ ((0xFFFFFFFF : Nat) < 2 ^ 32 → 0 ≤ POPCOUNT_32 0xFFFFFFFF ∧ POPCOUNT_32 0xFFFFFFFF ≤ 32)
    ∧ (0 ≤ POPCOUNT_64 0xFFFFFFFF ∧ POPCOUNT_64 0xFFFFFFFF ≤ 64) :=
  ⟨by decide, C5_POPCOUNT_range 0xFFFFFFFF (by decide)⟩

/-- C6: for every nonzero 32-bit word `w`, `LZCNT_32 w` and `TZCNT_32 w` lie
in `[0, 31]`, and for every nonzero 64-bit word they lie in `[0, 63]`; the
scanned index is at most `31` (resp. `63`), so the `unsigned long`
subtraction equals the exact difference and does not wrap. -/
theorem C6_LZCNT_TZCNT_range (w : Nat) (hw : w ≠ 0) (h64 : w < 2 ^ 64) :
    (w < 2 ^ 32 → (0 ≤ LZCNT_32 w ∧ LZCNT_32 w ≤ 31) ∧ (0 ≤ TZCNT_32 w ∧ TZCNT_32 w ≤ 31)
        ∧ (_BitScanReverse 0 w).1 ≤ 31
        ∧ subUL 31 (_BitScanReverse 0 w).1 = 31 - (_BitScanReverse 0 w).1)
    ∧ ((0 ≤ LZCNT_64 w ∧ LZCNT_64 w ≤ 63) ∧ (0 ≤ TZCNT_64 w ∧ TZCNT_64 w ≤ 63)
        ∧ (_BitScanReverse64 0 w).1 ≤ 63
        ∧ subUL 63 (_BitScanReverse64 0 w).1 = 63 - (_BitScanReverse64 0 w).1) := by
  constructor
  · intro h32
    obtain ⟨h, h1, _, _, h4, h5⟩ := LZCNT_32_val w hw h32
    obtain ⟨t, t1, _, _, t4⟩ := TZCNT_32_val w hw h32
    rw [h4, h5, t4]
    exact ⟨by omega, by omega, by omega, (subUL_toInt 31 h (by norm_num) (by omega)).1⟩
  · obtain ⟨h, h1, _, _, h4, h5⟩ := LZCNT_64_val w hw h64
    obtain ⟨t, t1, _, _, t4⟩ := TZCNT_64_val w hw h64
    rw [h4, h5, t4]
    exact ⟨by omega, by omega, by omega, (subUL_toInt 63 h (by norm_num) (by omega)).1⟩

theorem C6_LZCNT_TZCNT_range_witness :
    (0x80000001 : Nat) ≠ 0 ∧ (0x80000001 : Nat) < 2 ^ 64
    ∧ ((0 ≤ LZCNT_64 0x80000001 ∧ LZCNT_64 0x80000001 ≤ 63)
        ∧ (0 ≤ TZCNT_64 0x80000001 ∧ TZCNT_64 0x80000001 ≤ 63)
        ∧ (_BitScanReverse64 0 0x80000001).1 ≤ 63
        ∧ subUL 63 (_BitScanReverse64 0 0x80000001).1
            = 63 - (_BitScanReverse64 0 0x80000001).1) :=
  ⟨by decide, by decide, (C6_LZCNT_TZCNT_range 0x80000001 (by decide) (by decide)).2⟩

/-- C7: on the boundary words `0`, `1`, `max_value` and `max_value / 2` the
fallback popcount returns `0, 1, 32, 31` (32-bit) and `0, 1, 64, 63`
(64-bit), which is the reference count of set bits of these words. -/
theorem C7_POPCOUNT_boundary_words :
    (POPCOUNT_32 UINT32_ZEROS = 0 ∧ POPCOUNT_32 UINT32_ONE_MASK = 1
      ∧ POPCOUNT_32 UINT32_ONES = 32 ∧ POPCOUNT_32 UINT32_ZERO_LAST_MASK = 31)
    ∧ (POPCOUNT_64 UINT64_ZEROS = 0 ∧ POPCOUNT_64 UINT64_ONE_MASK = 1
      ∧ POPCOUNT_64 UINT64_ONES = 64 ∧ POPCOUNT_64 UINT64_ZERO_LAST_MASK = 63)
    ∧ (UINT32_ZEROS = 0 ∧ UINT32_ONE_MASK = 1 ∧ UINT32_ONES = 2 ^ 32 - 1
      ∧ UINT32_ZERO_LAST_MASK = UINT32_ONES / 2)
    ∧ (UINT64_ZEROS = 0 ∧ UINT64_ONE_MASK = 1 ∧ UINT64_ONES = 2 ^ 64 - 1
      ∧ UINT64_ZERO_LAST_MASK = UINT64_ONES / 2)
    ∧ (popcountRef 32 UINT32_ZEROS = 0 ∧ popcountRef 32 UINT32_ONE_MASK = 1
      ∧ popcountRef 32 UINT32_ONES = 32 ∧ popcountRef 32 UINT32_ZERO_LAST_MASK = 31)
    ∧ (popcountRef 64 UINT64_ZEROS = 0 ∧ popcountRef 64 UINT64_ONE_MASK = 1
      ∧ popcountRef 64 UINT64_ONES = 64 ∧ popcountRef 64 UINT64_ZERO_LAST_MASK = 63) := by
  refine ⟨⟨?_, ?_, ?_, ?_⟩, ⟨?_, ?_, ?_, ?_⟩, ⟨?_, ?_, ?_, ?_⟩, ⟨?_, ?_, ?_, ?_⟩,
    ⟨?_, ?_, ?_, ?_⟩, ⟨?_, ?_, ?_, ?_⟩⟩ <;> decide

/-! ## Relations between the counts -/

/-- C8: for every nonzero 32-bit word `w`,
`LZCNT_32 w + TZCNT_32 w + POPCOUNT_32 w ≤ 32`: the set bits all lie between
the lowest and the highest set bit. -/
theorem C8_LZCNT_TZCNT_POPCOUNT_le_32 (w : Nat) (hw : w ≠ 0) (h32 : w < 2 ^ 32) :
    LZCNT_32 w + TZCNT_32 w + POPCOUNT_32 w ≤ 32 := by
  obtain ⟨h, h1, h2, h3, _, h5⟩ := LZCNT_32_val w hw h32
  obtain ⟨t, t1, t2, t3, t4⟩ := TZCNT_32_val w hw h32
  have hth : t ≤ h := by
    by_contra hlt
    rw [h3 t (by omega)] at t2
    exact Bool.noConfusion t2
  have hwin := popcountRef_window w t h hth t3 h3 32
  rw [h5, t4, POPCOUNT_32_eq w h32]
  omega

theorem C8_LZCNT_TZCNT_POPCOUNT_le_32_witness :
    (0x00FF0F00 : Nat) ≠ 0 ∧ (0x00FF0F00 : Nat) < 2 ^ 32
    ∧ LZCNT_32 0x00FF0F00 + TZCNT_32 0x00FF0F00 + POPCOUNT_32 0x00FF0F00 ≤ 32 :=
  ⟨by decide, by decide, C8_LZCNT_TZCNT_POPCOUNT_le_32 0x00FF0F00 (by decide) (by decide)⟩

/-- C9 (as stated) fails: for the nonzero 32-bit word `w = 0x00010000`,
`lz = LZCNT_32 w = 15` and `w >> lz = 2`, whose highest set bit is at
position `1`, not at position `31 - lz = 16`. -/
theorem C9_shifted_top_bit_counterexample :
    (0x00010000 : Nat) ≠ 0 ∧ (0x00010000 : Nat) < 2 ^ 32
    ∧ LZCNT_32 0x00010000 = 15
    ∧ (0x00010000 : Nat) >>> (LZCNT_32 0x00010000).toNat = 2
    ∧ (31 - LZCNT_32 0x00010000).toNat = 16
    ∧ highestSetBitAt ((0x00010000 : Nat) >>> (LZCNT_32 0x00010000).toNat) 1
    ∧ ¬ highestSetBitAt ((0x00010000 : Nat) >>> (LZCNT_32 0x00010000).toNat)
          (31 - LZCNT_32 0x00010000).toNat := by
  have e1 : LZCNT_32 0x00010000 = 15 := by decide
  have e2 : (0x00010000 : Nat) >>> (15 : Int).toNat = 2 := by decide
  have e3 : (31 - (15 : Int)).toNat = 16 := by decide
  refine ⟨by decide, by decide, e1, by rw [e1]; exact e2, by rw [e1]; exact e3, ?_, ?_⟩
  · rw [e1, e2]
    refine ⟨by decide, fun j hj => ?_⟩
    exact testBit_false_of_lt 2 2 j (by decide) (by omega)
  · rw [e1, e2, e3]
    intro hc
    have := hc.1
    revert this
    decide

/-- C9 (amended): for every nonzero 32-bit word `w` with `lz = LZCNT_32 w`,
the word `w` itself has its highest set bit at position `31 - lz`; the
shifted word `w >> lz` has its highest set bit at that position exactly
when `lz = 0`. -/
theorem C9_top_bit_position (w : Nat) (hw : w ≠ 0) (h32 : w < 2 ^ 32) :
    highestSetBitAt w (31 - LZCNT_32 w).toNat
    ∧ (highestSetBitAt (w >>> (LZCNT_32 w).toNat) (31 - LZCNT_32 w).toNat
        ↔ LZCNT_32 w = 0) := by
  obtain ⟨h, h1, h2, h3, _, h5⟩ := LZCNT_32_val w hw h32
  have p1 : (31 - LZCNT_32 w).toNat = h := by rw [h5]; omega
  have p2 : (LZCNT_32 w).toNat = 31 - h := by rw [h5]; omega
  rw [p1, p2]
  refine ⟨⟨h2, h3⟩, ?_, ?_⟩
  · intro hs
    have hb := hs.1
    rw [Nat.testBit_shiftRight] at hb
    have e : 31 - h + h = 31 := by omega
    rw [e] at hb
    have h31 : h = 31 := by
      by_contra hne
      rw [h3 31 (by omega)] at hb
      exact Bool.noConfusion hb
    rw [h5, h31]
    rfl
  · intro hz
    have h31 : h = 31 := by rw [h5] at hz; omega
    subst h31
    exact ⟨by simpa using h2, fun j hj => by simpa using h3 j hj⟩

theorem C9_top_bit_position_witness :
    (0x00010000 : Nat) ≠ 0 ∧ (0x00010000 : Nat) < 2 ^ 32
    ∧ highestSetBitAt 0x00010000 (31 - LZCNT_32 0x00010000).toNat
    ∧ (highestSetBitAt ((0x00010000 : Nat) >>> (LZCNT_32 0x00010000).toNat)
          (31 - LZCNT_32 0x00010000).toNat
        ↔ LZCNT_32 0x00010000 = 0) :=
  ⟨by decide, by decide, C9_top_bit_position 0x00010000 (by decide) (by decide)⟩

/-! ## Inclusive random sampler -/

theorem field_add_two (k i v : Nat) : field k (i + 2) v = field k i (v / 2 ^ (2 * k)) := by
  unfold field
  have e : 2 ^ (k * (i + 2)) = 2 ^ (2 * k) * 2 ^ (k * i) := by
    rw [← pow_add]; congr 1; ring
  rw [e, Nat.div_div_eq_div_mul]

/-- Field `j` of width `2 * k` after a round is the sum of the fields `2 * j`
and `2 * j + 1` of width `k` before it. -/
theorem swarRound_field (k : Nat) (hk : 1 ≤ k) : ∀ (n v j : Nat), v < 2 ^ (2 * k * n) →
    j < n → field (2 * k) j (swarRound k (fieldMask k n) v)
      = field k (2 * j) v + field k (2 * j + 1) v := by
  intro n
  induction n with
  | zero => intro v j _ hj; omega
  | succ n ih =>
    intro v j hv hj
    have hpos : 0 < 2 ^ (2 * k) := Nat.pos_pow_of_pos _ (by norm_num)
    have hkpos : 0 < 2 ^ k := Nat.pos_pow_of_pos _ (by norm_num)
    have hlo : v % 2 ^ k + v / 2 ^ k % 2 ^ k < 2 ^ (2 * k) := by
      have h1 : v % 2 ^ k < 2 ^ k := Nat.mod_lt _ hkpos
      have h2 : v / 2 ^ k % 2 ^ k < 2 ^ k := Nat.mod_lt _ hkpos
      have h3 := two_pow_double_le k hk
      omega
    rw [swarRound_succ]
    cases j with
    | zero =>
      unfold field
      simp only [Nat.mul_zero, Nat.pow_zero, Nat.div_one, Nat.zero_add, Nat.mul_one]
      rw [Nat.add_mul_mod_self_left, Nat.mod_eq_of_lt hlo]
    | succ j =>
      have hsplit : 2 ^ (2 * k * (n + 1)) = 2 ^ (2 * k) * 2 ^ (2 * k * n) := by
        rw [← pow_add]; congr 1; ring
      have hq : v / 2 ^ (2 * k) < 2 ^ (2 * k * n) := by
        rw [Nat.div_lt_iff_lt_mul hpos, Nat.mul_comm, ← hsplit]; exact hv
      have e1 : field (2 * k) (j + 1)
          (v % 2 ^ k + v / 2 ^ k % 2 ^ k
            + 2 ^ (2 * k) * swarRound k (fieldMask k n) (v / 2 ^ (2 * k)))
          = field (2 * k) j (swarRound k (fieldMask k n) (v / 2 ^ (2 * k))) := by
        unfold field
        have e : 2 ^ (2 * k * (j + 1)) = 2 ^ (2 * k) * 2 ^ (2 * k * j) := by
          rw [← pow_add]; congr 1; ring
        rw [e, ← Nat.div_div_eq_div_mul, Nat.add_mul_div_left _ _ hpos,
          Nat.div_eq_of_lt hlo, Nat.zero_add]
      have e2 : 2 * (j + 1) = 2 * j + 2 := by ring
      have e3 : 2 * (j + 1) + 1 = (2 * j + 1) + 2 := by ring
      rw [e1, ih (v / 2 ^ (2 * k)) j hq (by omega), e3, e2, field_add_two, field_add_two]

theorem bitsIn_add (w s a b : Nat) : bitsIn w s (a + b) = bitsIn w s a + bitsIn w (s + a) b := by
  unfold bitsIn
  rw [List.range_add, List.filter_append, List.length_append, List.filter_map,
    List.length_map]
  have e : ((fun i => w.testBit (s + i)) ∘ fun x => a + x)
      = (fun i => w.testBit (s + a + i)) := by
    funext i
    simp [Nat.add_assoc]
  rw [e]

theorem bitsIn_le (w s len : Nat) : bitsIn w s len ≤ len := by
  unfold bitsIn
  calc ((List.range len).filter (fun i => w.testBit (s + i))).length
      ≤ (List.range len).length := List.length_filter_le _ _
    _ = len := List.length_range len

theorem field_one (w j : Nat) : field 1 j w = bitsIn w (1 * j) 1 := by
  unfold field bitsIn
  have r1 : List.range 1 = [0] := rfl
  rw [Nat.one_mul, Nat.pow_one, r1]
  rcases Nat.mod_two_eq_zero_or_one (w / 2 ^ j) with h | h
  · simp [List.filter, Nat.testBit_to_div_mod, h]
  · simp [List.filter, Nat.testBit_to_div_mod, h]

/-- If every field of width `k` of `v` holds the number of set bits of `w` in
that field, then after a round every field of width `2 * k` does. -/
theorem swarRound_fields (k n v w : Nat) (hk : 1 ≤ k) (hv : v < 2 ^ (2 * k * n))
    (hinv : ∀ j, j < 2 * n → field k j v = bitsIn w (k * j) k) :
    ∀ j, j < n → field (2 * k) j (swarRound k (fieldMask k n) v)
      = bitsIn w (2 * k * j) (2 * k) := by
  intro j hj
  have e1 : 2 * k * j = k * (2 * j) := by ring
  have e2 : k * (2 * j) + k = k * (2 * j + 1) := by ring
  rw [swarRound_field k hk n v j hv hj, hinv (2 * j) (by omega), hinv (2 * j + 1) (by omega),
    Nat.two_mul k, bitsIn_add, ← Nat.two_mul k, e1, e2]

theorem round64_fields (k n m v w : Nat) (hk : 1 ≤ k) (hm : fieldMask k n = m)
    (hn : 2 * k * n = 64) (hv : v < 2 ^ 64)
    (hinv : ∀ j, j < 2 * n → field k j v = bitsIn w (k * j) k) :
    toU64 ((v &&& m) + ((v >>> k) &&& m)) < 2 ^ 64
      ∧ ∀ j, j < n → field (2 * k) j (toU64 ((v &&& m) + ((v >>> k) &&& m)))
          = bitsIn w (2 * k * j) (2 * k) := by
  have hb := (round64 k n m v hk hm hn hv).1
  have h := swarRound_fields k n v w hk (by rw [hn]; exact hv) hinv
  rw [hm] at h
  unfold swarRound at h
  unfold toU64 at hb ⊢
  have hlt : (v &&& m) + ((v >>> k) &&& m) < 2 ^ 64 := by
    have := (swarRound_spec k hk n v (by rw [hn]; exact hv)).1
    rw [hn, hm] at this
    exact this
  rw [Nat.mod_eq_of_lt hlt]
  exact ⟨hlt, h⟩

theorem round32_fields (k n m v w : Nat) (hk : 1 ≤ k) (hm : fieldMask k n = m)
    (hn : 2 * k * n = 32) (hv : v < 2 ^ 32)
    (hinv : ∀ j, j < 2 * n → field k j v = bitsIn w (k * j) k) :
    toU32 (toU64 ((v &&& m) + ((v >>> k) &&& m))) < 2 ^ 32
      ∧ ∀ j, j < n → field (2 * k) j (toU32 (toU64 ((v &&& m) + ((v >>> k) &&& m))))
          = bitsIn w (2 * k * j) (2 * k) := by
  have h := swarRound_fields k n v w hk (by rw [hn]; exact hv) hinv
  rw [hm] at h
  unfold swarRound at h
  have hlt : (v &&& m) + ((v >>> k) &&& m) < 2 ^ 32 := by
    have := (swarRound_spec k hk n v (by rw [hn]; exact hv)).1
    rw [hn, hm] at this
    exact this
  unfold toU32 toU64
  rw [Nat.mod_eq_of_lt (lt_trans hlt (by norm_num)), Nat.mod_eq_of_lt hlt]
  exact ⟨hlt, h⟩

/-- The working value of `POPCOUNT_64` after each of the six rounds. -/
theorem POPCOUNT_64_after_fields (w : Nat) (hw : w < 2 ^ 64) :
    (∀ j, j < 32 → field 2 j (POPCOUNT_64_after 1 w) = bitsIn w (2 * j) 2)
    ∧ (∀ j, j < 16 → field 4 j (POPCOUNT_64_after 2 w) = bitsIn w (4 * j) 4)
    ∧ (∀ j, j < 8 → field 8 j (POPCOUNT_64_after 3 w) = bitsIn w (8 * j) 8)
    ∧ (∀ j, j < 4 → field 16 j (POPCOUNT_64_after 4 w) = bitsIn w (16 * j) 16)
    ∧ (∀ j, j < 2 → field 32 j (POPCOUNT_64_after 5 w) = bitsIn w (32 * j) 32)
    ∧ (∀ j, j < 1 → field 64 j (POPCOUNT_64_after 6 w) = bitsIn w (64 * j) 64) := by
  obtain ⟨b1, s1⟩ := round64_fields 1 32 0x5555555555555555 w w (by norm_num)
    (by norm_num [fieldMask]) (by norm_num) hw (fun j _ => field_one w j)
  obtain ⟨b2, s2⟩ := round64_fields 2 16 0x3333333333333333 _ w (by norm_num)
    (by norm_num [fieldMask]) (by norm_num) b1 s1
  obtain ⟨b3, s3⟩ := round64_fields 4 8 0x0f0f0f0f0f0f0f0f _ w (by norm_num)
    (by norm_num [fieldMask]) (by norm_num) b2 s2
  obtain ⟨b4, s4⟩ := round64_fields 8 4 0x00ff00ff00ff00ff _ w (by norm_num)
    (by norm_num [fieldMask]) (by norm_num) b3 s3
  obtain ⟨b5, s5⟩ := round64_fields 16 2 0x0000ffff0000ffff _ w (by norm_num)
    (by norm_num [fieldMask]) (by norm_num) b4 s4
  obtain ⟨_, s6⟩ := round64_fields 32 1 0x00000000ffffffff _ w (by norm_num)
    (by norm_num [fieldMask]) (by norm_num) b5 s5
  exact ⟨s1, s2, s3, s4, s5, s6⟩

/-- The working value of `POPCOUNT_32` after each of the five rounds. -/
theorem POPCOUNT_32_after_fields (w : Nat) (hw : w < 2 ^ 32) :
    (∀ j, j < 16 → field 2 j (POPCOUNT_32_after 1 w) = bitsIn w (2 * j) 2)
    ∧ (∀ j, j < 8 → field 4 j (POPCOUNT_32_after 2 w) = bitsIn w (4 * j) 4)
    ∧ (∀ j, j < 4 → field 8 j (POPCOUNT_32_after 3 w) = bitsIn w (8 * j) 8)
    ∧ (∀ j, j < 2 → field 16 j (POPCOUNT_32_after 4 w) = bitsIn w (16 * j) 16)
    ∧ (∀ j, j < 1 → field 32 j (POPCOUNT_32_after 5 w) = bitsIn w (32 * j) 32) := by
  obtain ⟨b1, s1⟩ := round32_fields 1 16 0x55555555 w w (by norm_num)
    (by norm_num [fieldMask]) (by norm_num) hw (fun j _ => field_one w j)
  obtain ⟨b2, s2⟩ := round32_fields 2 8 0x33333333 _ w (by norm_num)
    (by norm_num [fieldMask]) (by norm_num) b1 s1
  obtain ⟨b3, s3⟩ := round32_fields 4 4 0x0f0f0f0f _ w (by norm_num)
    (by norm_num [fieldMask]) (by norm_num) b2 s2
  obtain ⟨b4, s4⟩ := round32_fields 8 2 0x00ff00ff _ w (by norm_num)
    (by norm_num [fieldMask]) (by norm_num) b3 s3
  obtain ⟨_, s5⟩ := round32_fields 16 1 0x0000ffff _ w (by norm_num)
    (by norm_num [fieldMask]) (by norm_num) b4 s4
  exact ⟨s1, s2, s3, s4, s5⟩

theorem field_eq_halves (k j v v2 w : Nat)
    (hA : field (2 * k) j v2 = bitsIn w (2 * k * j) (2 * k))
    (h0 : field k (2 * j) v = bitsIn w (k * (2 * j)) k)
    (h1 : field k (2 * j + 1) v = bitsIn w (k * (2 * j + 1)) k) :
    field (2 * k) j v2 = field k (2 * j) v + field k (2 * j + 1) v := by
  have e1 : 2 * k * j = k * (2 * j) := by ring
  have e2 : k * (2 * j) + k = k * (2 * j + 1) := by ring
  rw [hA, h0, h1, Nat.two_mul k, bitsIn_add, ← Nat.two_mul k, e1, e2]

/-- After round `k` of `POPCOUNT_64` every aligned field of `2^k` bits holds
the number of set bits of the input in that field, and it is the exact sum of
the two half fields before the round. -/
theorem POPCOUNT_64_round_invariant (w : Nat) (hw : w < 2 ^ 64) (k j : Nat) (hk1 : 1 ≤ k)
    (hk6 : k ≤ 6) (hj : j < 64 / 2 ^ k) :
    field (2 ^ k) j (POPCOUNT_64_after k w) = bitsIn w (2 ^ k * j) (2 ^ k)
    ∧ field (2 ^ k) j (POPCOUNT_64_after k w)
        = field (2 ^ (k - 1)) (2 * j) (POPCOUNT_64_after (k - 1) w)
          + field (2 ^ (k - 1)) (2 * j + 1) (POPCOUNT_64_after (k - 1) w) := by
  obtain ⟨s1, s2, s3, s4, s5, s6⟩ := POPCOUNT_64_after_fields w hw
  have s0 : ∀ i, field 1 i (POPCOUNT_64_after 0 w) = bitsIn w (1 * i) 1 :=
    fun i => field_one w i
  interval_cases k
  · have hj2 : j < 32 := by simpa using hj
    exact ⟨s1 j hj2, field_eq_halves 1 j _ _ w (s1 j hj2) (s0 _) (s0 _)⟩
  · have hj2 : j < 16 := by simpa using hj
    exact ⟨s2 j hj2, field_eq_halves 2 j _ _ w (s2 j hj2) (s1 _ (by omega)) (s1 _ (by omega))⟩
  · have hj2 : j < 8 := by simpa using hj
    exact ⟨s3 j hj2, field_eq_halves 4 j _ _ w (s3 j hj2) (s2 _ (by omega)) (s2 _ (by omega))⟩
  · have hj2 : j < 4 := by simpa using hj
    exact ⟨s4 j hj2, field_eq_halves 8 j _ _ w (s4 j hj2) (s3 _ (by omega)) (s3 _ (by omega))⟩
  · have hj2 : j < 2 := by simpa using hj
    exact ⟨s5 j hj2, field_eq_halves 16 j _ _ w (s5 j hj2) (s4 _ (by omega)) (s4 _ (by omega))⟩
  · have hj2 : j < 1 := by simpa using hj
    exact ⟨s6 j hj2, field_eq_halves 32 j _ _ w (s6 j hj2) (s5 _ (by omega)) (s5 _ (by omega))⟩

/-- The analogue of `POPCOUNT_64_round_invariant` for the five rounds of
`POPCOUNT_32`. -/
theorem POPCOUNT_32_round_invariant (w : Nat) (hw : w < 2 ^ 32) (k j : Nat) (hk1 : 1 ≤ k)
    (hk5 : k ≤ 5) (hj : j < 32 / 2 ^ k) :
    field (2 ^ k) j (POPCOUNT_32_after k w) = bitsIn w (2 ^ k * j) (2 ^ k)
    ∧ field (2 ^ k) j (POPCOUNT_32_after k w)
        = field (2 ^ (k - 1)) (2 * j) (POPCOUNT_32_after (k - 1) w)
          + field (2 ^ (k - 1)) (2 * j + 1) (POPCOUNT_32_after (k - 1) w) := by
  obtain ⟨s1, s2, s3, s4, s5⟩ := POPCOUNT_32_after_fields w hw
  have s0 : ∀ i, field 1 i (POPCOUNT_32_after 0 w) = bitsIn w (1 * i) 1 :=
    fun i => field_one w i
  interval_cases k
  · have hj2 : j < 16 := by simpa using hj
    exact ⟨s1 j hj2, field_eq_halves 1 j _ _ w (s1 j hj2) (s0 _) (s0 _)⟩
  · have hj2 : j < 8 := by simpa using hj
    exact ⟨s2 j hj2, field_eq_halves 2 j _ _ w (s2 j hj2) (s1 _ (by omega)) (s1 _ (by omega))⟩
  · have hj2 : j < 4 := by simpa using hj
    exact ⟨s3 j hj2, field_eq_halves 4 j _ _ w (s3 j hj2) (s2 _ (by omega)) (s2 _ (by omega))⟩
  · have hj2 : j < 2 := by simpa using hj
    exact ⟨s4 j hj2, field_eq_halves 8 j _ _ w (s4 j hj2) (s3 _ (by omega)) (s3 _ (by omega))⟩
  · have hj2 : j < 1 := by simpa using hj
    exact ⟨s5 j hj2, field_eq_halves 16 j _ _ w (s5 j hj2) (s4 _ (by omega)) (s4 _ (by omega))⟩

/-- C13: writing `value k` for the working value of `POPCOUNT_64` after its
`k`-th round (`k = 1..6`, and `POPCOUNT_64` returns `value 6` as `int`),
every aligned field of `2^k` bits of `value k` holds the number of set bits
of the input in that field, and it is the exact sum of the two half fields
of `value (k - 1)`, so no sum carries into the neighbouring field; likewise
for the five rounds of `POPCOUNT_32`. -/
theorem C13_POPCOUNT_round_fields (w : Nat) (hw : w < 2 ^ 64) :
    (POPCOUNT_64 w = toInt (POPCOUNT_64_after 6 w)
      ∧ ∀ k j, 1 ≤ k → k ≤ 6 → j < 64 / 2 ^ k →
          field (2 ^ k) j (POPCOUNT_64_after k w) = bitsIn w (2 ^ k * j) (2 ^ k)
          ∧ field (2 ^ k) j (POPCOUNT_64_after k w)
              = field (2 ^ (k - 1)) (2 * j) (POPCOUNT_64_after (k - 1) w)
                + field (2 ^ (k - 1)) (2 * j + 1) (POPCOUNT_64_after (k - 1) w))
    ∧ (w < 2 ^ 32 →
        POPCOUNT_32 w = toInt (POPCOUNT_32_after 5 w)
        ∧ ∀ k j, 1 ≤ k → k ≤ 5 → j < 32 / 2 ^ k →
            field (2 ^ k) j (POPCOUNT_32_after k w) = bitsIn w (2 ^ k * j) (2 ^ k)
            ∧ field (2 ^ k) j (POPCOUNT_32_after k w)
                = field (2 ^ (k - 1)) (2 * j) (POPCOUNT_32_after (k - 1) w)
                  + field (2 ^ (k - 1)) (2 * j + 1) (POPCOUNT_32_after (k - 1) w)) :=
  ⟨⟨rfl, fun k j h1 h2 h3 => POPCOUNT_64_round_invariant w hw k j h1 h2 h3⟩,
    fun h32 => ⟨rfl, fun k j h1 h2 h3 => POPCOUNT_32_round_invariant w h32 k j h1 h2 h3⟩⟩

theorem C13_POPCOUNT_round_fields_witness :
    (0xF0F0F0F0F0F0F0F1 : Nat) < 2 ^ 64
    ∧ field (2 ^ 3) 0 (POPCOUNT_64_after 3 0xF0F0F0F0F0F0F0F1)
        = bitsIn 0xF0F0F0F0F0F0F0F1 (2 ^ 3 * 0) (2 ^ 3)
    ∧ field (2 ^ 3) 0 (POPCOUNT_64_after 3 0xF0F0F0F0F0F0F0F1)
        = field (2 ^ (3 - 1)) (2 * 0) (POPCOUNT_64_after (3 - 1) 0xF0F0F0F0F0F0F0F1)
          + field (2 ^ (3 - 1)) (2 * 0 + 1) (POPCOUNT_64_after (3 - 1) 0xF0F0F0F0F0F0F0F1) :=
  ⟨by decide,
    (C13_POPCOUNT_round_fields 0xF0F0F0F0F0F0F0F1 (by decide)).1.2 3 0 (by decide) (by decide)
      (by decide)⟩

/-! ## Math macros -/

theorem div_ceil_least (n d : Nat) (hd : 0 < d) :
    n ≤ (n + (d - 1)) / d * d ∧ ∀ q2, n ≤ q2 * d → (n + (d - 1)) / d ≤ q2 := by
  constructor
  · by_contra hlt
    have h1 : ((n + (d - 1)) / d + 1) * d ≤ n + (d - 1) := by
      rw [Nat.add_mul, Nat.one_mul]; omega
    have h2 := (Nat.le_div_iff_mul_le hd).mpr h1
    omega
  · intro q2 hq
    have h1 : n + (d - 1) < (q2 + 1) * d := by
      rw [Nat.add_mul, Nat.one_mul]; omega
    have h2 := (Nat.div_lt_iff_lt_mul hd).mpr h1
    omega

theorem div_floor_greatest (n d : Nat) (hd : 0 < d) :
    n / d * d ≤ n ∧ ∀ q2, q2 * d ≤ n → q2 ≤ n / d :=
  ⟨Nat.div_mul_le_self n d, fun _ hq => (Nat.le_div_iff_mul_le hd).mpr hq⟩

theorem DIV_CEIL_eq (n d : Nat) (hd : d < 2 ^ 64) (hpos : 0 < d)
    (hsum : n + (d - 1) < 2 ^ 64) : DIV_CEIL n d = some ((n + (d - 1)) / d) := by
  unfold DIV_CEIL
  rw [if_neg (by omega)]
  have e1 : toU64 (d + 2 ^ 64 - 1) = d - 1 := by unfold toU64; omega
  have e2 : toU64 (n + (d - 1)) = n + (d - 1) := by
    unfold toU64; exact Nat.mod_eq_of_lt hsum
  rw [e1, e2]

/-- C14: for unsigned 64-bit `n` and `d` with `d > 0` and
`n + (d - 1) < 2^64`, `DIV_CEIL n d` is the least `q` with `q * d ≥ n` and
`DIV_FLOOR n d` is the greatest `q` with `q * d ≤ n`. -/
theorem C14_DIV_CEIL_DIV_FLOOR (n d : Nat) (hn : n < 2 ^ 64) (hd : d < 2 ^ 64)
    (hpos : 0 < d) (hsum : n + (d - 1) < 2 ^ 64) :
    (∃ q, DIV_CEIL n d = some q ∧ q < 2 ^ 64 ∧ n ≤ q * d ∧ ∀ q2, n ≤ q2 * d → q ≤ q2)
    ∧ (∃ q, DIV_FLOOR n d = some q ∧ q < 2 ^ 64 ∧ q * d ≤ n ∧ ∀ q2, q2 * d ≤ n → q2 ≤ q) := by
  constructor
  · refine ⟨(n + (d - 1)) / d, DIV_CEIL_eq n d hd hpos hsum, ?_, div_ceil_least n d hpos⟩
    exact lt_of_le_of_lt (Nat.div_le_self _ _) hsum
  · refine ⟨n / d, ?_, lt_of_le_of_lt (Nat.div_le_self _ _) hn, div_floor_greatest n d hpos⟩
    unfold DIV_FLOOR
    rw [if_neg (by omega)]

theorem C14_DIV_CEIL_DIV_FLOOR_witness :
    (17 : Nat) < 2 ^ 64 ∧ (5 : Nat) < 2 ^ 64 ∧ 0 < 5 ∧ 17 + (5 - 1) < 2 ^ 64
    ∧ (∃ q, DIV_CEIL 17 5 = some q ∧ q < 2 ^ 64 ∧ 17 ≤ q * 5 ∧ ∀ q2, 17 ≤ q2 * 5 → q ≤ q2)
    ∧ (∃ q, DIV_FLOOR 17 5 = some q ∧ q < 2 ^ 64 ∧ q * 5 ≤ 17 ∧ ∀ q2, q2 * 5 ≤ 17 → q2 ≤ q) :=
  ⟨by decide, by decide, by decide, by decide,
    C14_DIV_CEIL_DIV_FLOOR 17 5 (by decide) (by decide) (by decide) (by decide)⟩

/-- C15: for every numerator `n`, `DIVC_FLOOR n 0 = 0` and `DIVC_CEIL n 0 = 0`
although the plain divisions by zero are not defined, and for every
denominator `d ≠ 0` the checked macros agree with `DIV_FLOOR` and
`DIV_CEIL`. -/
theorem C15_DIVC_zero_denominator (n : Nat) :
    DIVC_FLOOR n 0 = some 0 ∧ DIVC_CEIL n 0 = some 0
    ∧ DIV_FLOOR n 0 = none ∧ DIV_CEIL n 0 = none
    ∧ ∀ d, d ≠ 0 → DIVC_FLOOR n d = DIV_FLOOR n d ∧ DIVC_CEIL n d = DIV_CEIL n d := by
  refine ⟨by simp [DIVC_FLOOR], by simp [DIVC_CEIL], by simp [DIV_FLOOR], by simp [DIV_CEIL], ?_⟩
  intro d hd
  exact ⟨by simp [DIVC_FLOOR, hd], by simp [DIVC_CEIL, hd]⟩

theorem C15_DIVC_zero_denominator_witness :
    DIVC_FLOOR 17 5 = DIV_FLOOR 17 5 ∧ DIVC_CEIL 17 5 = DIV_CEIL 17 5 :=
  (C15_DIVC_zero_denominator 17).2.2.2.2 5 (by decide)

/-- C16: for unsigned 64-bit `minuend`, `subtrahend`, `limit` with
`limit + subtrahend` not overflowing, `BOUNDED_SUBTRACTION` equals
`max (minuend - subtrahend) limit` computed over the integers; the
subtraction is evaluated only when `subtrahend ≤ minuend`, and the result is
never below `limit`. -/
theorem C16_BOUNDED_SUBTRACTION_max (minuend subtrahend limit : Nat)
    (hm : minuend < 2 ^ 64) (hno : limit + subtrahend < 2 ^ 64) :
    ((BOUNDED_SUBTRACTION minuend subtrahend limit : Nat) : Int)
        = max ((minuend : Int) - (subtrahend : Int)) (limit : Int)
    ∧ limit ≤ BOUNDED_SUBTRACTION minuend subtrahend limit
    ∧ (minuend > toU64 (limit + subtrahend) → subtrahend ≤ minuend)
    ∧ (¬ minuend > toU64 (limit + subtrahend) →
        BOUNDED_SUBTRACTION minuend subtrahend limit = limit) := by
  have e1 : toU64 (limit + subtrahend) = limit + subtrahend := by
    unfold toU64; exact Nat.mod_eq_of_lt hno
  unfold BOUNDED_SUBTRACTION
  rw [e1]
  by_cases h : minuend > limit + subtrahend
  · have e2 : toU64 (minuend + 2 ^ 64 - subtrahend) = minuend - subtrahend := by
      unfold toU64; omega
    rw [if_pos h, e2]
    refine ⟨?_, by omega, fun _ => by omega, fun hn => absurd h hn⟩
    rw [max_eq_left (by omega)]
    omega
  · rw [if_neg h]
    refine ⟨?_, le_refl _, fun hp => absurd hp h, fun _ => rfl⟩
    rw [max_eq_right (by omega)]

theorem C16_BOUNDED_SUBTRACTION_max_witness :
    (5 : Nat) < 2 ^ 64 ∧ (3 + 9 : Nat) < 2 ^ 64
    ∧ ((BOUNDED_SUBTRACTION 5 9 3 : Nat) : Int) = max ((5 : Int) - 9) 3
    ∧ 3 ≤ BOUNDED_SUBTRACTION 5 9 3 :=
  ⟨by decide, by decide,
    (C16_BOUNDED_SUBTRACTION_max 5 9 3 (by decide) (by decide)).1,
    (C16_BOUNDED_SUBTRACTION_max 5 9 3 (by decide) (by decide)).2.1⟩

/-- C17 (as stated) fails: for `summand_A = 2^64 - 1`, `summand_B = 2` and
`limit = 10` the 64-bit sum wraps to `1`, which is below the limit, so
`BOUNDED_ADDITION` returns the wrapped sum `1` and not
`min (summand_A + summand_B) limit = 10`. -/
theorem C17_BOUNDED_ADDITION_wrap_counterexample :
    (2 ^ 64 - 1 : Nat) < 2 ^ 64 ∧ (2 : Nat) < 2 ^ 64 ∧ (10 : Nat) < 2 ^ 64
    ∧ BOUNDED_ADDITION (2 ^ 64 - 1) 2 10 = 1
    ∧ min ((2 ^ 64 - 1 : Nat) + 2) 10 = 10
    ∧ BOUNDED_ADDITION (2 ^ 64 - 1) 2 10 ≠ min ((2 ^ 64 - 1 : Nat) + 2) 10 := by
  refine ⟨by decide, by decide, by decide, by decide, by decide, by decide⟩

/-- C17 (amended): for unsigned 64-bit `summand_A`, `summand_B` whose sum
does not overflow (`summand_A + summand_B < 2^64`) and every `limit`,
`BOUNDED_ADDITION` equals `min (summand_A + summand_B) limit`. -/
theorem C17_BOUNDED_ADDITION_min (summand_A summand_B limit : Nat)
    (hsum : summand_A + summand_B < 2 ^ 64) :
    BOUNDED_ADDITION summand_A summand_B limit = min (summand_A + summand_B) limit := by
  have e : toU64 (summand_A + summand_B) = summand_A + summand_B := by
    unfold toU64; exact Nat.mod_eq_of_lt hsum
  unfold BOUNDED_ADDITION
  rw [e]
  by_cases h : summand_A + summand_B < limit
  · rw [if_pos h, Nat.min_eq_left (by omega)]
  · rw [if_neg h, Nat.min_eq_right (by omega)]

theorem C17_BOUNDED_ADDITION_min_witness :
    (7 + 8 : Nat) < 2 ^ 64 ∧ BOUNDED_ADDITION 7 8 10 = min (7 + 8) 10 :=
  ⟨by decide, C17_BOUNDED_ADDITION_min 7 8 10 (by decide)⟩

/-! ## The two popcount fallbacks agree -/

theorem popcountRef_extend (n w : Nat) (hw : w < 2 ^ n) :
    ∀ m, popcountRef (n + m) w = popcountRef n w := by
  intro m
  induction m with
  | zero => rfl
  | succ m ih =>
    rw [← Nat.add_assoc, popcountRef_succ_top, ih,
      testBit_false_of_lt w n (n + m) hw (by omega)]
    simp

/-- C18: for every 32-bit word `w`, the fallback `POPCOUNT_32 w` equals the
fallback `POPCOUNT_64` applied to `w` zero-extended to 64 bits. -/
theorem C18_POPCOUNT_32_eq_POPCOUNT_64 (w : Nat) (hw : w < 2 ^ 32) :
    POPCOUNT_32 w = POPCOUNT_64 (toU64 w) := by
  have e : toU64 w = w := by unfold toU64; exact Nat.mod_eq_of_lt (by omega)
  rw [e, POPCOUNT_32_eq w hw, POPCOUNT_64_eq w (by omega)]
  have := popcountRef_extend 32 w hw 32
  norm_num at this
  rw [this]

theorem C18_POPCOUNT_32_eq_POPCOUNT_64_witness :
    (0xDEADBEEF : Nat) < 2 ^ 32 ∧ POPCOUNT_32 0xDEADBEEF = POPCOUNT_64 (toU64 0xDEADBEEF) :=
  ⟨by decide, C18_POPCOUNT_32_eq_POPCOUNT_64 0xDEADBEEF (by decide)⟩

/-! ## Hexadecimal digits -/

theorem IS_HEX_DIGIT_iff (c : Int) :
    IS_HEX_DIGIT c = true
      ↔ (48 ≤ c ∧ c ≤ 57) ∨ (97 ≤ c ∧ c ≤ 102) ∨ (65 ≤ c ∧ c ≤ 70) := by
  have e0 : chr '0' = 48 := by decide
  have e9 : chr '9' = 57 := by decide
  have ea : chr 'a' = 97 := by decide
  have ef : chr 'f' = 102 := by decide
  have eA : chr 'A' = 65 := by decide
  have eF : chr 'F' = 70 := by decide
  unfold IS_HEX_DIGIT IS_NUMBER
  rw [e0, e9, ea, ef, eA, eF]
  simp only [Bool.or_eq_true, Bool.and_eq_true, decide_eq_true_eq]
  tauto

theorem hex_mem_iff (c : Int) :
    (c ∈ hexLower ∨ c ∈ hexUpper)
      ↔ (48 ≤ c ∧ c ≤ 57) ∨ (97 ≤ c ∧ c ≤ 102) ∨ (65 ≤ c ∧ c ≤ 70) := by
  have eL : hexLower = [48, 49, 50, 51, 52, 53, 54, 55, 56, 57, 97, 98, 99, 100, 101, 102] := by
    decide
  have eU : hexUpper = [48, 49, 50, 51, 52, 53, 54, 55, 56, 57, 65, 66, 67, 68, 69, 70] := by
    decide
  rw [eL, eU]
  simp only [List.mem_cons, List.mem_singleton, List.not_mem_nil, or_false]
  omega

theorem GET_HEX_DIGIT_value (c : Int)
    (h : (48 ≤ c ∧ c ≤ 57) ∨ (97 ≤ c ∧ c ≤ 102) ∨ (65 ≤ c ∧ c ≤ 70)) :
    0 ≤ GET_HEX_DIGIT c ∧ GET_HEX_DIGIT c ≤ 15 ∧ GET_HEX_DIGIT c = hexValueRef c
      ∧ GET_HEX_DIGIT c = GET_HEX_DIGIT (toupper c) := by
  rcases h with ⟨h1, h2⟩ | ⟨h1, h2⟩ | ⟨h1, h2⟩
  · interval_cases c <;> decide
  · interval_cases c <;> decide
  · interval_cases c <;> decide

/-- C19: for every character code `c`, `IS_HEX_DIGIT c` holds exactly when
`c` is one of `0..9`, `a..f`, `A..F`, and for every such `c`
`GET_HEX_DIGIT c` lies in `[0, 15]` and is the hexadecimal value of the
digit, the same for a lower-case letter and its upper-case letter. -/
theorem C19_hex_digit_value (c : Int) :
    (IS_HEX_DIGIT c = true ↔ c ∈ hexLower ∨ c ∈ hexUpper)
    ∧ (IS_HEX_DIGIT c = true →
        0 ≤ GET_HEX_DIGIT c ∧ GET_HEX_DIGIT c ≤ 15 ∧ GET_HEX_DIGIT c = hexValueRef c
          ∧ GET_HEX_DIGIT c = GET_HEX_DIGIT (toupper c)) :=
  ⟨(IS_HEX_DIGIT_iff c).trans (hex_mem_iff c).symm,
    fun h => GET_HEX_DIGIT_value c ((IS_HEX_DIGIT_iff c).mp h)⟩

theorem C19_hex_digit_value_witness :
    IS_HEX_DIGIT (chr 'c') = true
    ∧ hexValueRef (chr 'c') = 12 ∧ toupper (chr 'c') = chr 'C'
    ∧ 0 ≤ GET_HEX_DIGIT (chr 'c') ∧ GET_HEX_DIGIT (chr 'c') ≤ 15
    ∧ GET_HEX_DIGIT (chr 'c') = hexValueRef (chr 'c')
    ∧ GET_HEX_DIGIT (chr 'c') = GET_HEX_DIGIT (toupper (chr 'c')) :=
  ⟨by decide, by decide, by decide, (C19_hex_digit_value (chr 'c')).2 (by decide)⟩

end WFA2
